import Mathlib

/-!
Verification development for the p2p-solana-network-simulation node
(`src/simulation/src/main.rs`). The gossip-message ingestion path, the
distributed table, the event-loop dispatch and the broadcast path are
embedded as executable Lean definitions, and the claimed properties of
the design are settled against them.
-/

set_option autoImplicit false

namespace P2PSim

/-! ## Base64 (standard alphabet, canonical padding)

`base64::decode` in the Rust source uses the standard alphabet
(`A-Z`, `a-z`, `0-9`, `+`, `/`) with `=` padding, rejecting invalid
bytes, non-canonical trailing bits and bad lengths. Bytes are modelled
as `Nat` values below 256. -/

/-- The 64 characters of the standard base64 alphabet, in value order. -/
def b64Chars : List Char :=
  ['A', 'B', 'C', 'D', 'E', 'F', 'G', 'H', 'I', 'J', 'K', 'L', 'M',
   'N', 'O', 'P', 'Q', 'R', 'S', 'T', 'U', 'V', 'W', 'X', 'Y', 'Z',
   'a', 'b', 'c', 'd', 'e', 'f', 'g', 'h', 'i', 'j', 'k', 'l', 'm',
   'n', 'o', 'p', 'q', 'r', 's', 't', 'u', 'v', 'w', 'x', 'y', 'z'] ++
  (List.range 10).map Nat.digitChar ++ ['+', '/']

/-- Character for a 6-bit value. -/
def b64Char (v : Nat) : Char := b64Chars.getD v ' '

/-- Scan a character list for `c`, returning its position offset by `i`. -/
def valIn (l : List Char) (c : Char) (i : Nat) : Option Nat :=
  match l with
  | [] => none
  | d :: rest => if d = c then some i else valIn rest c (i + 1)

/-- Value of one base64 alphabet character (standard alphabet). -/
def b64Val (c : Char) : Option Nat := valIn b64Chars c 0

/-- Decode a base64 character list chunk-wise: four characters yield three
bytes; a final chunk may carry one or two `=` padding characters, whose
unused bits must be zero (canonical encoding, as the Rust decoder checks). -/
def decodeB64Chunks : List Char → Option (List Nat)
  | [] => some []
  | c1 :: c2 :: c3 :: c4 :: rest =>
    match b64Val c1, b64Val c2 with
    | some v1, some v2 =>
      if c3 = '=' then
        if c4 = '=' ∧ rest = [] ∧ v2 % 16 = 0 then
          some [v1 * 4 + v2 / 16]
        else none
      else
        match b64Val c3 with
        | some v3 =>
          if c4 = '=' then
            if rest = [] ∧ v3 % 4 = 0 then
              some [v1 * 4 + v2 / 16, v2 % 16 * 16 + v3 / 4]
            else none
          else
            match b64Val c4 with
            | some v4 =>
              (decodeB64Chunks rest).map
                (fun bs => (v1 * 4 + v2 / 16) :: (v2 % 16 * 16 + v3 / 4) ::
                  (v3 % 4 * 64 + v4) :: bs)
            | none => none
        | none => none
    | _, _ => none
  | _ => none

/-- `base64::decode`: transport decoding of a transaction payload. -/
def base64Decode (s : String) : Option (List Nat) :=
  decodeB64Chunks s.data

/-- Canonical base64 encoding of a byte list (used to show the decoder is
injective: decoding is a section of this encoding). -/
def encodeB64Bytes : List Nat → List Char
  | [] => []
  | [b1] => [b64Char (b1 / 4), b64Char (b1 % 4 * 16), '=', '=']
  | [b1, b2] =>
    [b64Char (b1 / 4), b64Char (b1 % 4 * 16 + b2 / 16), b64Char (b2 % 16 * 4), '=']
  | b1 :: b2 :: b3 :: rest =>
    b64Char (b1 / 4) :: b64Char (b1 % 4 * 16 + b2 / 16) ::
      b64Char (b2 % 16 * 4 + b3 / 64) :: b64Char (b3 % 64) :: encodeB64Bytes rest

/-! ## Lowercase hex digest

The ingestion path computes `format!("\x7b:02x\x7d", b)` for each decoded
byte and concatenates: the lowercase two-digit hex encoding. -/

/-- Lowercase hex digit of a value below 16 (`Nat.digitChar` maps
`0..15` to `0..9a..f`, exactly the Rust lowercase hex formatting). -/
def hexDigit (n : Nat) : Char := Nat.digitChar n

/-- Two-digit lowercase hex encoding of one byte. -/
def byteToHex (b : Nat) : List Char := [hexDigit (b / 16), hexDigit (b % 16)]

/-- Hex digest of a byte list, as the Rust `map(format hex).collect::<String>()`. -/
def bytesToHex (bs : List Nat) : String :=
  ⟨bs.foldr (fun b acc => byteToHex b ++ acc) []⟩

/-! ## The distributed table

`DistributedTable` holds two `HashMap`s; they are modelled as
association lists in key-insertion order, with lookup by key.
`alistPush` is `entry(k).or_default().push(x)`, `alistInsert` is
`insert(k, v)` (overwrites the value at an existing key). -/

/-- Lookup in an association list. -/
def alistLookup {α : Type} : List (String × α) → String → Option α
  | [], _ => none
  | (k, v) :: rest, key => if k = key then some v else alistLookup rest key

/-- `HashMap::entry(k).or_default().push(x)`: append `x` to the list at
key `k`, creating the entry with a singleton list if the key is absent. -/
def alistPush : List (String × List String) → String → String → List (String × List String)
  | [], k, x => [(k, [x])]
  | (k1, xs) :: rest, k, x =>
    if k1 = k then (k1, xs ++ [x]) :: rest else (k1, xs) :: alistPush rest k x

/-- `HashMap::insert(k, v)`: overwrite the value at `k`, or add the entry. -/
def alistInsert {α : Type} : List (String × α) → String → α → List (String × α)
  | [], k, v => [(k, v)]
  | (k1, v1) :: rest, k, v =>
    if k1 = k then (k1, v) :: rest else (k1, v1) :: alistInsert rest k v

/-- The `TransactionMessage` wire struct: a base64-encoded transaction,
the sender's peer id as a string, and a seconds timestamp. -/
structure TransactionMessage where
  transaction : String
  sender : String
  timestamp : Nat
deriving DecidableEq, Repr

/-- The node-local `DistributedTable`: `peers` maps a peer id to the list
of transactions received from it; `transactions` maps a hex content hash
to the transaction payload. -/
structure DistributedTable where
  peers : List (String × List String)
  transactions : List (String × String)
deriving DecidableEq, Repr

/-- The table a node starts with: both maps empty. -/
def DistributedTable.empty : DistributedTable := ⟨[], []⟩

/-- Outcome of one step of the event loop: either the loop returns
normally with the table in the given state, or the step panicked (a Rust
`unwrap` failure), leaving the shared table in the given state at the
moment of the panic. -/
inductive StepResult where
  | ok (table : DistributedTable)
  | panicked (table : DistributedTable)
deriving DecidableEq, Repr

/-- The table state carried by a step outcome (the state an observer of
the shared `Arc<Mutex<_>>` would find). -/
def StepResult.table : StepResult → DistributedTable
  | .ok t => t
  | .panicked t => t

/-- Ingestion of a parsed `TransactionMessage`, exactly as the gossip
arm of the event loop performs it: first
`table.peers.entry(sender).or_default().push(transaction)`, then
`table.transactions.insert(hex(base64::decode(transaction).unwrap()), transaction)`.
The `unwrap` panics when base64 decoding fails, after the `peers` append
has already happened. -/
def ingest (t : DistributedTable) (m : TransactionMessage) : StepResult :=
  let t1 : DistributedTable :=
    { t with peers := alistPush t.peers m.sender m.transaction }
  match base64Decode m.transaction with
  | none => .panicked t1
  | some bs =>
    .ok { t1 with
          transactions := alistInsert t1.transactions (bytesToHex bs) m.transaction }

/-- The behaviour events the event loop matches on. `mdnsDiscovered`
carries the discovered `(peer id, address)` pairs; `gossipsubMessage`
carries the result of the external `serde_json::from_slice` parse of the
message bytes (`none` when the envelope does not parse); `other` stands
for every remaining behaviour-event variant, which the loop's wildcard
arm ignores. -/
inductive NodeBehaviourEvent where
  | mdnsDiscovered (peers : List (String × String))
  | gossipsubMessage (parsedMessage : Option TransactionMessage)
  | other
deriving DecidableEq, Repr

/-- One iteration of the event loop body on a behaviour event: discovery
events are only printed; a gossip message whose envelope parses is
ingested; everything else is ignored. -/
def handleBehaviourEvent (t : DistributedTable) : NodeBehaviourEvent → StepResult
  | .mdnsDiscovered _ => .ok t
  | .gossipsubMessage none => .ok t
  | .gossipsubMessage (some m) => ingest t m
  | .other => .ok t

/-- Run the event loop over a list of behaviour events, stopping at a
panic (a panic unwinds the loop task; no further event is processed). -/
def runEvents (t : DistributedTable) : List NodeBehaviourEvent → StepResult
  | [] => .ok t
  | e :: es =>
    match handleBehaviourEvent t e with
    | .ok t1 => runEvents t1 es
    | .panicked t1 => .panicked t1

/-! ## Broadcast path

`Node::broadcast_transaction` calls the external ledger client for a
recent blockhash, builds and base64-encodes a Solana transaction (both
external collaborators, passed in as parameters), wraps it in a
`TransactionMessage` carrying the node's own peer id and the current
time, serializes it with `serde_json` (infallible for this struct) and
publishes it on the gossip topic. The publish outcome is a parameter;
the returned trace lists every message handed to `publish`. -/

/-- Result and publish trace of one `broadcast_transaction` call. -/
def broadcast_transaction (peer_id : String) (now : Nat)
    (blockhashRes : Except String Nat)
    (encodeTxData : Nat → String)
    (publishRes : TransactionMessage → Except String Unit) :
    Except String Unit × List TransactionMessage :=
  match blockhashRes with
  | .error e => (.error e, [])
  | .ok blockhash =>
    let message : TransactionMessage :=
      { transaction := encodeTxData blockhash
        sender := peer_id
        timestamp := now }
    match publishRes message with
    | .error e => (.error e, [message])
    | .ok _ => (.ok (), [message])

/-! ## Association-list lemmas -/

theorem alistLookup_push_self (l : List (String × List String)) (k x : String) :
    alistLookup (alistPush l k x) k = some ((alistLookup l k).getD [] ++ [x]) := by
  induction l with
  | nil => simp [alistPush, alistLookup]
  | cons p rest ih =>
    obtain ⟨k1, xs⟩ := p
    by_cases h : k1 = k
    · subst h
      simp [alistPush, alistLookup]
    · simp [alistPush, alistLookup, h, ih]

theorem alistLookup_push_ne (l : List (String × List String)) (k x k1 : String)
    (h : k1 ≠ k) : alistLookup (alistPush l k x) k1 = alistLookup l k1 := by
  induction l with
  | nil => simp [alistPush, alistLookup, Ne.symm h]
  | cons p rest ih =>
    obtain ⟨k2, xs⟩ := p
    by_cases h2 : k2 = k
    · subst h2
      simp [alistPush, alistLookup, Ne.symm h]
    · simp [alistPush, alistLookup, h2, ih]

theorem alistLookup_insert_self {α : Type} (l : List (String × α)) (k : String) (v : α) :
    alistLookup (alistInsert l k v) k = some v := by
  induction l with
  | nil => simp [alistInsert, alistLookup]
  | cons p rest ih =>
    obtain ⟨k1, v1⟩ := p
    by_cases h : k1 = k
    · subst h
      simp [alistInsert, alistLookup]
    · simp [alistInsert, alistLookup, h, ih]

theorem alistLookup_insert_ne {α : Type} (l : List (String × α)) (k : String) (v : α)
    (k1 : String) (h : k1 ≠ k) :
    alistLookup (alistInsert l k v) k1 = alistLookup l k1 := by
  induction l with
  | nil => simp [alistInsert, alistLookup, Ne.symm h]
  | cons p rest ih =>
    obtain ⟨k2, v2⟩ := p
    by_cases h2 : k2 = k
    · subst h2
      simp [alistInsert, alistLookup, Ne.symm h]
    · simp [alistInsert, alistLookup, h2, ih]

theorem alistInsert_lookup_eq {α : Type} (l : List (String × α)) (k : String) (v : α)
    (h : alistLookup l k = some v) : alistInsert l k v = l := by
  induction l with
  | nil => simp [alistLookup] at h
  | cons p rest ih =>
    obtain ⟨k1, v1⟩ := p
    by_cases h1 : k1 = k
    · subst h1
      simp [alistLookup] at h
      simp [alistInsert, h]
    · simp [alistLookup, h1] at h
      simp [alistInsert, h1, ih h]

theorem alistPush_length (l : List (String × List String)) (k x : String)
    (h : alistLookup l k = none) : (alistPush l k x).length = l.length + 1 := by
  induction l with
  | nil => simp [alistPush]
  | cons p rest ih =>
    obtain ⟨k1, xs⟩ := p
    by_cases h1 : k1 = k
    · subst h1
      simp [alistLookup] at h
    · simp [alistLookup, h1] at h
      simp [alistPush, h1, ih h]

theorem alistInsert_length {α : Type} (l : List (String × α)) (k : String) (v : α)
    (h : alistLookup l k = none) : (alistInsert l k v).length = l.length + 1 := by
  induction l with
  | nil => simp [alistInsert]
  | cons p rest ih =>
    obtain ⟨k1, v1⟩ := p
    by_cases h1 : k1 = k
    · subst h1
      simp [alistLookup] at h
    · simp [alistLookup, h1] at h
      simp [alistInsert, h1, ih h]

theorem alistLookup_insert_cases {α : Type} (l : List (String × α)) (k : String) (v : α)
    (k1 : String) (v1 : α) (h : alistLookup (alistInsert l k v) k1 = some v1) :
    (k1 = k ∧ v1 = v) ∨ alistLookup l k1 = some v1 := by
  by_cases hk : k1 = k
  · subst hk
    rw [alistLookup_insert_self] at h
    exact Or.inl ⟨rfl, (Option.some.injEq _ _ ▸ h).symm⟩
  · rw [alistLookup_insert_ne _ _ _ _ hk] at h
    exact Or.inr h

/-! ## Base64 alphabet lemmas -/

theorem valIn_lt (l : List Char) (c : Char) (i v : Nat) (h : valIn l c i = some v) :
    v < i + l.length := by
  induction l generalizing i with
  | nil => simp [valIn] at h
  | cons d rest ih =>
    simp only [valIn] at h
    simp only [List.length_cons]
    by_cases hd : d = c
    · simp [hd] at h
      omega
    · simp [hd] at h
      have := ih (i + 1) h
      omega

theorem valIn_getD (l : List Char) (c : Char) (i v : Nat) (h : valIn l c i = some v) :
    i ≤ v ∧ l.getD (v - i) ' ' = c := by
  induction l generalizing i with
  | nil => simp [valIn] at h
  | cons d rest ih =>
    simp only [valIn] at h
    by_cases hd : d = c
    · simp [hd] at h
      subst h
      simp [hd]
    · simp [hd] at h
      obtain ⟨h1, h2⟩ := ih (i + 1) h
      refine ⟨by omega, ?_⟩
      have hvi : v - i = (v - (i + 1)) + 1 := by omega
      rw [hvi]
      simpa using h2

theorem b64Val_lt (c : Char) (v : Nat) (h : b64Val c = some v) : v < 64 := by
  have := valIn_lt b64Chars c 0 v h
  simpa [b64Chars] using this

theorem b64Char_b64Val (c : Char) (v : Nat) (h : b64Val c = some v) : b64Char v = c := by
  have := (valIn_getD b64Chars c 0 v h).2
  simpa [b64Char] using this

theorem b64Val_inj (c1 c2 : Char) (v : Nat) (h1 : b64Val c1 = some v)
    (h2 : b64Val c2 = some v) : c1 = c2 := by
  rw [← b64Char_b64Val c1 v h1, ← b64Char_b64Val c2 v h2]

/-! ## Decoder bounds, roundtrip and injectivity -/

theorem decodeB64Chunks_lt (cs : List Char) (bs : List Nat)
    (h : decodeB64Chunks cs = some bs) : ∀ b ∈ bs, b < 256 := by
  induction cs using decodeB64Chunks.induct generalizing bs with
  | case1 =>
    simp only [decodeB64Chunks, Option.some.injEq] at h
    simp [← h]
  | case2 c1 c2 c4 rest v1 v2 hv2 hv1 hcond =>
    obtain ⟨hc4, hrest, hv⟩ := hcond
    subst hc4
    subst hrest
    have b1 := b64Val_lt c1 v1 hv1
    have b2 := b64Val_lt c2 v2 hv2
    simp [decodeB64Chunks, hv1, hv2, hv] at h
    subst h
    intro b hb
    simp at hb
    subst hb
    omega
  | case3 c1 c2 c4 rest v1 v2 hv2 hv1 hcond =>
    simp [decodeB64Chunks, hv1, hv2, hcond] at h
  | case4 c1 c2 c3 rest v1 v2 hv2 hv1 hc3 v3 hv3 hcond =>
    obtain ⟨hrest, hv⟩ := hcond
    subst hrest
    have b1 := b64Val_lt c1 v1 hv1
    have b2 := b64Val_lt c2 v2 hv2
    have b3 := b64Val_lt c3 v3 hv3
    simp [decodeB64Chunks, hv1, hv2, hv3, hc3, hv] at h
    subst h
    intro b hb
    simp at hb
    rcases hb with rfl | rfl <;> omega
  | case5 c1 c2 c3 rest v1 v2 hv2 hv1 hc3 v3 hv3 hcond =>
    simp [decodeB64Chunks, hv1, hv2, hv3, hc3, hcond] at h
  | case6 c1 c2 c3 c4 rest v1 v2 hv2 hv1 hc3 v3 hv3 hc4 v4 hv4 ih1 =>
    have b1 := b64Val_lt c1 v1 hv1
    have b2 := b64Val_lt c2 v2 hv2
    have b3 := b64Val_lt c3 v3 hv3
    have b4 := b64Val_lt c4 v4 hv4
    simp only [decodeB64Chunks, hv1, hv2, hv3, hv4, hc3, hc4, if_neg,
      not_false_iff] at h
    cases hr : decodeB64Chunks rest with
    | none => rw [hr] at h; simp at h
    | some bs0 =>
      rw [hr] at h
      simp at h
      subst h
      intro b hb
      simp only [List.mem_cons] at hb
      rcases hb with hb | hb | hb | hb
      · omega
      · omega
      · omega
      · exact ih1 bs0 hr b hb
  | case7 c1 c2 c3 c4 rest v1 v2 hv2 hv1 hc3 v3 hv3 hc4 hnone =>
    simp [decodeB64Chunks, hv1, hv2, hv3, hnone, hc3, hc4] at h
  | case8 c1 c2 c3 c4 rest v1 v2 hv2 hv1 hc3 hnone =>
    simp [decodeB64Chunks, hv1, hv2, hnone, hc3] at h
  | case9 c1 c2 c3 c4 rest hcontra =>
    cases h1 : b64Val c1 with
    | none => simp [decodeB64Chunks, h1] at h
    | some v1 =>
      cases h2 : b64Val c2 with
      | none => simp [decodeB64Chunks, h1, h2] at h
      | some v2 => exact absurd (hcontra v1 v2 h1 h2) not_false
  | case10 t hne1 hne4 =>
    match t, hne1, hne4 with
    | [], hne1, _ => exact absurd rfl hne1
    | [a], _, _ => simp [decodeB64Chunks] at h
    | [a, b], _, _ => simp [decodeB64Chunks] at h
    | [a, b, c], _, _ => simp [decodeB64Chunks] at h
    | a :: b :: c :: d :: r, _, hne4 => exact absurd rfl (hne4 a b c d r)

theorem encode_decodeB64 (cs : List Char) (bs : List Nat)
    (h : decodeB64Chunks cs = some bs) : encodeB64Bytes bs = cs := by
  induction cs using decodeB64Chunks.induct generalizing bs with
  | case1 =>
    simp only [decodeB64Chunks, Option.some.injEq] at h
    simp [← h, encodeB64Bytes]
  | case2 c1 c2 c4 rest v1 v2 hv2 hv1 hcond =>
    obtain ⟨hc4, hrest, hv⟩ := hcond
    subst hc4
    subst hrest
    have b1 := b64Val_lt c1 v1 hv1
    have b2 := b64Val_lt c2 v2 hv2
    simp [decodeB64Chunks, hv1, hv2, hv] at h
    subst h
    have e1 : (v1 * 4 + v2 / 16) / 4 = v1 := by omega
    have e2 : (v1 * 4 + v2 / 16) % 4 * 16 = v2 := by omega
    simp only [encodeB64Bytes, e1, e2, b64Char_b64Val c1 v1 hv1,
      b64Char_b64Val c2 v2 hv2]
  | case3 c1 c2 c4 rest v1 v2 hv2 hv1 hcond =>
    simp [decodeB64Chunks, hv1, hv2, hcond] at h
  | case4 c1 c2 c3 rest v1 v2 hv2 hv1 hc3 v3 hv3 hcond =>
    obtain ⟨hrest, hv⟩ := hcond
    subst hrest
    have b1 := b64Val_lt c1 v1 hv1
    have b2 := b64Val_lt c2 v2 hv2
    have b3 := b64Val_lt c3 v3 hv3
    simp [decodeB64Chunks, hv1, hv2, hv3, hc3, hv] at h
    subst h
    have e1 : (v1 * 4 + v2 / 16) / 4 = v1 := by omega
    have e2 : (v1 * 4 + v2 / 16) % 4 * 16 + (v2 % 16 * 16 + v3 / 4) / 16 = v2 := by
      omega
    have e3 : (v2 % 16 * 16 + v3 / 4) % 16 * 4 = v3 := by omega
    simp only [encodeB64Bytes, e1, e2, e3, b64Char_b64Val c1 v1 hv1,
      b64Char_b64Val c2 v2 hv2, b64Char_b64Val c3 v3 hv3]
  | case5 c1 c2 c3 rest v1 v2 hv2 hv1 hc3 v3 hv3 hcond =>
    simp [decodeB64Chunks, hv1, hv2, hv3, hc3, hcond] at h
  | case6 c1 c2 c3 c4 rest v1 v2 hv2 hv1 hc3 v3 hv3 hc4 v4 hv4 ih1 =>
    have b1 := b64Val_lt c1 v1 hv1
    have b2 := b64Val_lt c2 v2 hv2
    have b3 := b64Val_lt c3 v3 hv3
    have b4 := b64Val_lt c4 v4 hv4
    simp only [decodeB64Chunks, hv1, hv2, hv3, hv4, hc3, hc4, if_neg,
      not_false_iff] at h
    cases hr : decodeB64Chunks rest with
    | none => rw [hr] at h; simp at h
    | some bs0 =>
      rw [hr] at h
      simp at h
      subst h
      have e1 : (v1 * 4 + v2 / 16) / 4 = v1 := by omega
      have e2 : (v1 * 4 + v2 / 16) % 4 * 16 + (v2 % 16 * 16 + v3 / 4) / 16 = v2 := by
        omega
      have e3 : (v2 % 16 * 16 + v3 / 4) % 16 * 4 + (v3 % 4 * 64 + v4) / 64 = v3 := by
        omega
      have e4 : (v3 % 4 * 64 + v4) % 64 = v4 := by omega
      simp only [encodeB64Bytes, e1, e2, e3, e4, b64Char_b64Val c1 v1 hv1,
        b64Char_b64Val c2 v2 hv2, b64Char_b64Val c3 v3 hv3,
        b64Char_b64Val c4 v4 hv4, ih1 bs0 hr]
  | case7 c1 c2 c3 c4 rest v1 v2 hv2 hv1 hc3 v3 hv3 hc4 hnone =>
    simp [decodeB64Chunks, hv1, hv2, hv3, hnone, hc3, hc4] at h
  | case8 c1 c2 c3 c4 rest v1 v2 hv2 hv1 hc3 hnone =>
    simp [decodeB64Chunks, hv1, hv2, hnone, hc3] at h
  | case9 c1 c2 c3 c4 rest hcontra =>
    cases h1 : b64Val c1 with
    | none => simp [decodeB64Chunks, h1] at h
    | some v1 =>
      cases h2 : b64Val c2 with
      | none => simp [decodeB64Chunks, h1, h2] at h
      | some v2 => exact absurd (hcontra v1 v2 h1 h2) not_false
  | case10 t hne1 hne4 =>
    match t, hne1, hne4 with
    | [], hne1, _ => exact absurd rfl hne1
    | [a], _, _ => simp [decodeB64Chunks] at h
    | [a, b], _, _ => simp [decodeB64Chunks] at h
    | [a, b, c], _, _ => simp [decodeB64Chunks] at h
    | a :: b :: c :: d :: r, _, hne4 => exact absurd rfl (hne4 a b c d r)

theorem string_eq_of_data (s1 s2 : String) (h : s1.data = s2.data) : s1 = s2 :=
  String.ext h

theorem base64Decode_inj (s1 s2 : String) (bs : List Nat)
    (h1 : base64Decode s1 = some bs) (h2 : base64Decode s2 = some bs) : s1 = s2 := by
  apply string_eq_of_data
  rw [← encode_decodeB64 s1.data bs h1, ← encode_decodeB64 s2.data bs h2]

theorem base64Decode_lt (s : String) (bs : List Nat) (h : base64Decode s = some bs) :
    ∀ b ∈ bs, b < 256 :=
  decodeB64Chunks_lt s.data bs h

/-! ## Hex digest injectivity -/

theorem hexDigit_inj (a b : Nat) (ha : a < 16) (hb : b < 16)
    (h : hexDigit a = hexDigit b) : a = b := by
  have H : ∀ a1 < 16, ∀ b1 < 16, hexDigit a1 = hexDigit b1 → a1 = b1 := by decide
  exact H a ha b hb h

theorem hexFold_inj (bs1 bs2 : List Nat) (h1 : ∀ b ∈ bs1, b < 256)
    (h2 : ∀ b ∈ bs2, b < 256)
    (h : bs1.foldr (fun b acc => byteToHex b ++ acc) [] =
      bs2.foldr (fun b acc => byteToHex b ++ acc) []) : bs1 = bs2 := by
  induction bs1 generalizing bs2 with
  | nil =>
    cases bs2 with
    | nil => rfl
    | cons b bs => simp [byteToHex] at h
  | cons a as ih =>
    cases bs2 with
    | nil => simp [byteToHex] at h
    | cons b bs =>
      simp only [List.foldr_cons, byteToHex, List.cons_append, List.nil_append,
        List.cons.injEq] at h
      obtain ⟨hhi, hlo, hrest⟩ := h
      have ha : a < 256 := h1 a (List.mem_cons_self a as)
      have hb : b < 256 := h2 b (List.mem_cons_self b bs)
      have e1 : a / 16 = b / 16 := hexDigit_inj _ _ (by omega) (by omega) hhi
      have e2 : a % 16 = b % 16 := hexDigit_inj _ _ (by omega) (by omega) hlo
      have hab : a = b := by omega
      subst hab
      have := ih bs (fun x hx => h1 x (List.mem_cons_of_mem a hx))
        (fun x hx => h2 x (List.mem_cons_of_mem a hx)) hrest
      rw [this]

theorem bytesToHex_inj (bs1 bs2 : List Nat) (h1 : ∀ b ∈ bs1, b < 256)
    (h2 : ∀ b ∈ bs2, b < 256) (h : bytesToHex bs1 = bytesToHex bs2) : bs1 = bs2 :=
  hexFold_inj bs1 bs2 h1 h2 (congrArg String.data h)

/-! ## Ingestion lemmas and the hash-index well-formedness invariant -/

/-- The content hash the ingestion path computes for a message with a
decodable payload. -/
def hashOfMsg (m : TransactionMessage) : String :=
  bytesToHex ((base64Decode m.transaction).getD [])

/-- Every entry of the hash index maps the hex digest of its value's
decoded bytes to that value. -/
def wellformedT (t : DistributedTable) : Prop :=
  ∀ k v, alistLookup t.transactions k = some v →
    ∃ bs, base64Decode v = some bs ∧ bytesToHex bs = k

theorem ingest_ok (t : DistributedTable) (m : TransactionMessage) (bs : List Nat)
    (h : base64Decode m.transaction = some bs) :
    ingest t m = .ok ⟨alistPush t.peers m.sender m.transaction,
      alistInsert t.transactions (bytesToHex bs) m.transaction⟩ := by
  simp [ingest, h]

theorem ingest_panicked (t : DistributedTable) (m : TransactionMessage)
    (h : base64Decode m.transaction = none) :
    ingest t m = .panicked ⟨alistPush t.peers m.sender m.transaction,
      t.transactions⟩ := by
  simp [ingest, h]

theorem wellformedT_empty : wellformedT DistributedTable.empty := by
  intro k v h
  simp [DistributedTable.empty, alistLookup] at h

theorem wellformedT_handle (t : DistributedTable) (e : NodeBehaviourEvent)
    (hwf : wellformedT t) : wellformedT ((handleBehaviourEvent t e).table) := by
  cases e with
  | mdnsDiscovered ps => exact hwf
  | other => exact hwf
  | gossipsubMessage pm =>
    cases pm with
    | none => exact hwf
    | some m =>
      cases hd : base64Decode m.transaction with
      | none =>
        have := ingest_panicked t m hd
        simp only [handleBehaviourEvent, this, StepResult.table]
        exact fun k v h => hwf k v h
      | some bs =>
        have := ingest_ok t m bs hd
        simp only [handleBehaviourEvent, this, StepResult.table]
        intro k v hkv
        rcases alistLookup_insert_cases _ _ _ _ _ hkv with ⟨hk, hv⟩ | hold
        · subst hk
          subst hv
          exact ⟨bs, hd, rfl⟩
        · exact hwf k v hold

theorem wellformedT_run (t : DistributedTable) (es : List NodeBehaviourEvent)
    (hwf : wellformedT t) : wellformedT ((runEvents t es).table) := by
  induction es generalizing t with
  | nil => exact hwf
  | cons e es ih =>
    have hstep := wellformedT_handle t e hwf
    simp only [runEvents]
    cases h : handleBehaviourEvent t e with
    | ok t1 =>
      rw [h] at hstep
      exact ih t1 hstep
    | panicked t1 =>
      rw [h] at hstep
      exact hstep

/-! ## Claim theorems -/

/-- C1: the claim says an undecodable transaction payload is dropped with
no partial update. The code instead panics on `base64::decode(..).unwrap()`
AND the panic happens after `peers.entry(sender).or_default().push(..)`
already ran: at the failing input `"%%%%"` (not valid base64), ingestion
panics with `peersToTransactions["peerA"]` already appended to, refuting
both the "dropped" and the "no partial update" parts. -/
theorem c1_undecodable_payload_panics_after_partial_update :
    base64Decode "%%%%" = none ∧
    ingest DistributedTable.empty ⟨"%%%%", "peerA", 0⟩ =
      .panicked ⟨[("peerA", ["%%%%"])], []⟩ := by
  constructor
  · decide
  · decide

/-- C2: the claim says ingestion is total, never panics, and the loop
always continues to the next event. At a gossip message whose payload
`"####"` is not valid base64, the event-loop body panics (the `unwrap`
on `base64::decode`) and the following valid message is never processed:
the run ends in a `panicked` state whose table has no `"peerC"` entry. -/
theorem c2_event_loop_panics_on_undecodable_payload :
    runEvents DistributedTable.empty
      [.gossipsubMessage (some ⟨"####", "peerB", 7⟩),
        .gossipsubMessage (some ⟨"AQID", "peerC", 8⟩)] =
      .panicked ⟨[("peerB", ["####"])], []⟩ := by
  decide

/-- C4: the content hash is the lowercase hex encoding of the decoded
transaction bytes: for any encoded string `e` whose decoded bytes are
`[0x01, 0x02, 0x03]`, ingesting `e` from sender `"peerA"` into an empty
table yields `hashToTransaction["010203"] = e` and
`peersToTransactions["peerA"] = [e]`. -/
theorem c4_hash_is_lowercase_hex_of_decoded_bytes (e : String) (ts : Nat)
    (h : base64Decode e = some [1, 2, 3]) :
    ∃ t1, ingest DistributedTable.empty ⟨e, "peerA", ts⟩ = .ok t1 ∧
      alistLookup t1.transactions "010203" = some e ∧
      alistLookup t1.peers "peerA" = some [e] := by
  have hh : bytesToHex [1, 2, 3] = "010203" := by decide
  have hi := ingest_ok DistributedTable.empty ⟨e, "peerA", ts⟩ [1, 2, 3] h
  refine ⟨_, hi, ?_, ?_⟩
  · simp [DistributedTable.empty, alistInsert, alistLookup, hh]
  · simp [DistributedTable.empty, alistPush, alistLookup]

/-- C4 witness: the concrete scenario with `e = "AQID"`, the canonical
base64 encoding of the bytes `[0x01, 0x02, 0x03]`. -/
theorem c4_witness :
    ∃ t1, ingest DistributedTable.empty ⟨"AQID", "peerA", 0⟩ = .ok t1 ∧
      alistLookup t1.transactions "010203" = some "AQID" ∧
      alistLookup t1.peers "peerA" = some ["AQID"] :=
  c4_hash_is_lowercase_hex_of_decoded_bytes "AQID" 0 (by decide)

/-- C7: a peer-discovery event and any behaviour-event variant other than
discovery and gossip messages leave the replicated table completely
unchanged (the loop only prints, or ignores the event). -/
theorem c7_non_table_events_leave_table_unchanged (t : DistributedTable)
    (ps : List (String × String)) :
    handleBehaviourEvent t (.mdnsDiscovered ps) = .ok t ∧
    handleBehaviourEvent t .other = .ok t :=
  ⟨rfl, rfl⟩

/-- C10: at every table state reachable by the event loop from startup,
every entry `(k, v)` of `hashToTransaction` satisfies: `v` base64-decodes
successfully and the lowercase hex encoding of its decoded bytes is
exactly `k`. -/
theorem c10_reachable_hash_index_consistent (es : List NodeBehaviourEvent)
    (k v : String)
    (h : alistLookup ((runEvents DistributedTable.empty es).table).transactions k =
      some v) :
    ∃ bs, base64Decode v = some bs ∧ bytesToHex bs = k :=
  wellformedT_run DistributedTable.empty es wellformedT_empty k v h

/-- C10 witness: after ingesting the message `"AQID"`, the stored entry
at key `"010203"` re-hashes to its own key. -/
theorem c10_witness :
    ∃ bs, base64Decode "AQID" = some bs ∧ bytesToHex bs = "010203" :=
  c10_reachable_hash_index_consistent
    [.gossipsubMessage (some ⟨"AQID", "peerA", 0⟩)] "010203" "AQID" (by decide)

/-- The behaviour events carrying a list of successfully parsed gossip
messages, in receipt order. -/
def msgEvents (ms : List TransactionMessage) : List NodeBehaviourEvent :=
  ms.map (fun m => .gossipsubMessage (some m))

/-- The sequence `peersToTransactions[s]`, empty when the key is absent. -/
def peersLog (t : DistributedTable) (s : String) : List String :=
  (alistLookup t.peers s).getD []

theorem run_msgs_append (ms : List TransactionMessage) (t : DistributedTable)
    (s : String) (hs : ∀ m ∈ ms, m.sender = s)
    (hd : ∀ m ∈ ms, (base64Decode m.transaction).isSome) :
    ∃ t1, runEvents t (msgEvents ms) = .ok t1 ∧
      peersLog t1 s = peersLog t s ++ ms.map (fun m => m.transaction) := by
  induction ms generalizing t with
  | nil => exact ⟨t, rfl, by simp [msgEvents, runEvents]⟩
  | cons m ms ih =>
    obtain ⟨bs, hd1⟩ := Option.isSome_iff_exists.mp (hd m (List.mem_cons_self m ms))
    have hsm : m.sender = s := hs m (List.mem_cons_self m ms)
    have hi := ingest_ok t m bs hd1
    obtain ⟨t1, hrun, hlog⟩ := ih
      ⟨alistPush t.peers m.sender m.transaction,
        alistInsert t.transactions (bytesToHex bs) m.transaction⟩
      (fun x hx => hs x (List.mem_cons_of_mem m hx))
      (fun x hx => hd x (List.mem_cons_of_mem m hx))
    refine ⟨t1, ?_, ?_⟩
    · simp only [msgEvents, List.map_cons, runEvents, handleBehaviourEvent, hi]
      exact hrun
    · rw [hlog]
      have hpush : peersLog
          (⟨alistPush t.peers m.sender m.transaction,
            alistInsert t.transactions (bytesToHex bs) m.transaction⟩ :
            DistributedTable) s = peersLog t s ++ [m.transaction] := by
        rw [← hsm]
        simp [peersLog, alistLookup_push_self]
      rw [hpush]
      simp

/-- C3: for a sequence of valid messages all from sender `s`, ingested in
order into a table with no prior entry for `s`, the final
`peersToTransactions[s]` is exactly the list of their encoded transaction
strings, in receipt order. -/
theorem c3_per_sender_log_preserves_receipt_order (t : DistributedTable)
    (s : String) (ms : List TransactionMessage)
    (hs : ∀ m ∈ ms, m.sender = s)
    (hd : ∀ m ∈ ms, (base64Decode m.transaction).isSome)
    (h0 : alistLookup t.peers s = none) :
    ∃ t1, runEvents t (msgEvents ms) = .ok t1 ∧
      peersLog t1 s = ms.map (fun m => m.transaction) := by
  obtain ⟨t1, hrun, hlog⟩ := run_msgs_append ms t s hs hd
  refine ⟨t1, hrun, ?_⟩
  rw [hlog]
  simp [peersLog, h0]

/-- C3 witness: two valid messages from `"peerA"` into an empty table
leave the log `["AQID", "AQI="]`, in receipt order. -/
theorem c3_witness :
    ∃ t1, runEvents DistributedTable.empty
        (msgEvents [⟨"AQID", "peerA", 0⟩, ⟨"AQI=", "peerA", 1⟩]) = .ok t1 ∧
      peersLog t1 "peerA" = ["AQID", "AQI="] :=
  c3_per_sender_log_preserves_receipt_order DistributedTable.empty "peerA"
    [⟨"AQID", "peerA", 0⟩, ⟨"AQI=", "peerA", 1⟩]
    (by decide) (by decide) (by decide)

/-- C5: two messages whose decoded payloads are byte-identical share one
hash key; after the second ingestion the hash index is unchanged (the
overwrite writes an equal value, since byte-identical decoded payloads
force identical encoded strings under canonical base64), while the
per-sender log records one entry per occurrence: two entries under the
sender when the senders coincide, one entry under each otherwise. -/
theorem c5_identical_payloads_dedup_in_hash_index (t : DistributedTable)
    (m1 m2 : TransactionMessage) (bs : List Nat)
    (h1 : base64Decode m1.transaction = some bs)
    (h2 : base64Decode m2.transaction = some bs) :
    m1.transaction = m2.transaction ∧
    ∃ t1 t2, ingest t m1 = .ok t1 ∧ ingest t1 m2 = .ok t2 ∧
      t2.transactions = t1.transactions ∧
      (m1.sender = m2.sender →
        alistLookup t2.peers m1.sender =
          some (peersLog t m1.sender ++ [m1.transaction, m2.transaction])) ∧
      (m1.sender ≠ m2.sender →
        alistLookup t2.peers m1.sender =
          some (peersLog t m1.sender ++ [m1.transaction]) ∧
        alistLookup t2.peers m2.sender =
          some (peersLog t m2.sender ++ [m2.transaction])) := by
  have htx : m1.transaction = m2.transaction := base64Decode_inj _ _ bs h1 h2
  have hi1 := ingest_ok t m1 bs h1
  set p1 : List (String × List String) := alistPush t.peers m1.sender m1.transaction
  set x1 : List (String × String) :=
    alistInsert t.transactions (bytesToHex bs) m1.transaction
  have hi2 := ingest_ok (⟨p1, x1⟩ : DistributedTable) m2 bs h2
  refine ⟨htx, ⟨p1, x1⟩, _, hi1, hi2, ?_, ?_, ?_⟩
  · show alistInsert x1 (bytesToHex bs) m2.transaction = x1
    apply alistInsert_lookup_eq
    rw [← htx]
    exact alistLookup_insert_self t.transactions (bytesToHex bs) m1.transaction
  · intro hss
    show alistLookup (alistPush p1 m2.sender m2.transaction) m1.sender = _
    rw [← hss]
    rw [alistLookup_push_self]
    have e1 : alistLookup p1 m1.sender =
        some (peersLog t m1.sender ++ [m1.transaction]) := by
      show alistLookup (alistPush t.peers m1.sender m1.transaction) m1.sender = _
      rw [alistLookup_push_self]
      simp [peersLog]
    rw [e1]
    simp
  · intro hss
    constructor
    · show alistLookup (alistPush p1 m2.sender m2.transaction) m1.sender = _
      rw [alistLookup_push_ne _ _ _ _ hss]
      show alistLookup (alistPush t.peers m1.sender m1.transaction) m1.sender = _
      rw [alistLookup_push_self]
      simp [peersLog]
    · show alistLookup (alistPush p1 m2.sender m2.transaction) m2.sender = _
      rw [alistLookup_push_self]
      have : alistLookup p1 m2.sender = alistLookup t.peers m2.sender := by
        show alistLookup (alistPush t.peers m1.sender m1.transaction) m2.sender = _
        exact alistLookup_push_ne _ _ _ _ (Ne.symm hss)
      rw [this]
      simp [peersLog]

/-- C5 witness: the same payload `"AQID"` from the same sender `"peerA"`
twice: the hash index keeps one entry, the per-sender log keeps both. -/
theorem c5_witness :
    "AQID" = "AQID" ∧
    ∃ t1 t2, ingest DistributedTable.empty ⟨"AQID", "peerA", 0⟩ = .ok t1 ∧
      ingest t1 ⟨"AQID", "peerA", 1⟩ = .ok t2 ∧
      t2.transactions = t1.transactions ∧
      alistLookup t2.peers "peerA" = some ["AQID", "AQID"] := by
  obtain ⟨htx, t1, t2, ha, hb, hc, hsame, _⟩ :=
    c5_identical_payloads_dedup_in_hash_index DistributedTable.empty
      ⟨"AQID", "peerA", 0⟩ ⟨"AQID", "peerA", 1⟩ [1, 2, 3] (by decide) (by decide)
  exact ⟨htx, t1, t2, ha, hb, hc, hsame rfl⟩

theorem push_preserves_entry (l : List (String × List String)) (k1 : String)
    (xs : List String) (k x : String) (h1 : alistLookup l k1 = some xs) :
    ∃ ys, alistLookup (alistPush l k x) k1 = some (xs ++ ys) := by
  by_cases hk : k1 = k
  · subst hk
    rw [alistLookup_push_self]
    exact ⟨[x], by simp [h1]⟩
  · exact ⟨[], by rw [alistLookup_push_ne _ _ _ _ hk, h1, List.append_nil]⟩

/-- C6: the table grows monotonically: processing any event preserves
every existing per-sender log entry (the sender's sequence is only ever
extended) and every existing hash-index entry with its exact value (an
overwrite at an existing key writes an equal value, given the hash-index
consistency invariant that every reachable state satisfies). -/
theorem c6_table_is_monotone_log (t : DistributedTable) (e : NodeBehaviourEvent)
    (k1 : String) (xs : List String) (k2 v : String)
    (hwf : wellformedT t)
    (h1 : alistLookup t.peers k1 = some xs)
    (h2 : alistLookup t.transactions k2 = some v) :
    (∃ ys, alistLookup ((handleBehaviourEvent t e).table).peers k1 =
      some (xs ++ ys)) ∧
    alistLookup ((handleBehaviourEvent t e).table).transactions k2 = some v := by
  cases e with
  | mdnsDiscovered ps => exact ⟨⟨[], by simpa using h1⟩, h2⟩
  | other => exact ⟨⟨[], by simpa using h1⟩, h2⟩
  | gossipsubMessage pm =>
    cases pm with
    | none => exact ⟨⟨[], by simpa using h1⟩, h2⟩
    | some m =>
      cases hd : base64Decode m.transaction with
      | none =>
        have hi := ingest_panicked t m hd
        simp only [handleBehaviourEvent, hi, StepResult.table]
        exact ⟨push_preserves_entry t.peers k1 xs m.sender m.transaction h1, h2⟩
      | some bs =>
        have hi := ingest_ok t m bs hd
        simp only [handleBehaviourEvent, hi, StepResult.table]
        refine ⟨push_preserves_entry t.peers k1 xs m.sender m.transaction h1, ?_⟩
        by_cases hk : k2 = bytesToHex bs
        · obtain ⟨bs2, hdv, hhex⟩ := hwf k2 v h2
          have hbs : bs2 = bs := by
            apply bytesToHex_inj bs2 bs
              (base64Decode_lt v bs2 hdv)
              (base64Decode_lt m.transaction bs hd)
            rw [hhex, hk]
          have hv : v = m.transaction := by
            apply base64Decode_inj v m.transaction bs
            · rw [← hbs] at hd ⊢
              exact hdv
            · exact hd
          rw [hk, hv]
          exact alistLookup_insert_self t.transactions (bytesToHex bs) m.transaction
        · rw [alistLookup_insert_ne _ _ _ _ hk]
          exact h2

theorem wellformedT_singleton (k v : String) (ps : List (String × List String))
    (bs : List Nat) (hd : base64Decode v = some bs) (hh : bytesToHex bs = k) :
    wellformedT ⟨ps, [(k, v)]⟩ := by
  intro k1 v1 h
  simp only [alistLookup] at h
  by_cases hk : k = k1
  · subst hk
    simp only [if_pos rfl] at h
    cases h
    exact ⟨bs, hd, hh⟩
  · simp [hk, alistLookup] at h

/-- C6 witness: a well-formed one-entry table keeps both of its entries
across the ingestion of a fresh message. -/
theorem c6_witness :
    (∃ ys, alistLookup ((handleBehaviourEvent
        ⟨[("peerA", ["AQID"])], [("010203", "AQID")]⟩
        (.gossipsubMessage (some ⟨"AQI=", "peerB", 5⟩))).table).peers "peerA" =
      some (["AQID"] ++ ys)) ∧
    alistLookup ((handleBehaviourEvent
        ⟨[("peerA", ["AQID"])], [("010203", "AQID")]⟩
        (.gossipsubMessage (some ⟨"AQI=", "peerB", 5⟩))).table).transactions
      "010203" = some "AQID" :=
  c6_table_is_monotone_log ⟨[("peerA", ["AQID"])], [("010203", "AQID")]⟩
    (.gossipsubMessage (some ⟨"AQI=", "peerB", 5⟩)) "peerA" ["AQID"] "010203" "AQID"
    (wellformedT_singleton "010203" "AQID" [("peerA", ["AQID"])] [1, 2, 3]
      (by decide) (by decide))
    (by decide) (by decide)

/-- C8: `broadcast_transaction` builds the `TransactionMessage` with the
node's own peer id and the current timestamp and hands exactly that
message to gossipsub `publish` at most once (no retry); it returns the
blockhash failure without publishing when the external ledger call
fails, returns the publish failure when `publish` fails, and returns
`ok` otherwise — failures are returned as values, never a panic, so the
node keeps running. -/
theorem c8_broadcast_builds_own_message_and_propagates_failure
    (peer_id : String) (now : Nat) (bh : Except String Nat)
    (enc : Nat → String) (pub : TransactionMessage → Except String Unit) :
    (broadcast_transaction peer_id now bh enc pub).2.length ≤ 1 ∧
    (∀ m ∈ (broadcast_transaction peer_id now bh enc pub).2,
      m.sender = peer_id ∧ m.timestamp = now) ∧
    (∀ e, bh = .error e →
      broadcast_transaction peer_id now bh enc pub = (.error e, [])) ∧
    (∀ b, bh = .ok b →
      (pub ⟨enc b, peer_id, now⟩ = .ok () →
        broadcast_transaction peer_id now bh enc pub =
          (.ok (), [⟨enc b, peer_id, now⟩])) ∧
      (∀ e, pub ⟨enc b, peer_id, now⟩ = .error e →
        broadcast_transaction peer_id now bh enc pub =
          (.error e, [⟨enc b, peer_id, now⟩]))) := by
  cases bh with
  | error e0 =>
    refine ⟨by simp [broadcast_transaction], by simp [broadcast_transaction], ?_, ?_⟩
    · intro e he
      cases he
      simp [broadcast_transaction]
    · intro b hb
      cases hb
  | ok b0 =>
    cases hp : pub ⟨enc b0, peer_id, now⟩ with
    | error e0 =>
      refine ⟨?_, ?_, ?_, ?_⟩
      · simp [broadcast_transaction, hp]
      · intro m hm
        simp [broadcast_transaction, hp] at hm
        simp [hm]
      · intro e he
        cases he
      · intro b hb
        cases hb
        refine ⟨fun hok => ?_, fun e he => ?_⟩
        · rw [hp] at hok
          cases hok
        · rw [hp] at he
          cases he
          simp [broadcast_transaction, hp]
    | ok u =>
      cases u
      refine ⟨?_, ?_, ?_, ?_⟩
      · simp [broadcast_transaction, hp]
      · intro m hm
        simp [broadcast_transaction, hp] at hm
        simp [hm]
      · intro e he
        cases he
      · intro b hb
        cases hb
        refine ⟨fun _ => ?_, fun e he => ?_⟩
        · simp [broadcast_transaction, hp]
        · rw [hp] at he
          cases he

/-- C8 witness: with the ledger call succeeding and `publish` succeeding,
the broadcast returns ok and publishes exactly the node's own message. -/
theorem c8_witness :
    broadcast_transaction "peerX" 42 (.ok 5) (fun _ => "AQID") (fun _ => .ok ()) =
      (.ok (), [⟨"AQID", "peerX", 42⟩]) :=
  ((c8_broadcast_builds_own_message_and_propagates_failure "peerX" 42 (.ok 5)
    (fun _ => "AQID") (fun _ => .ok ())).2.2.2 5 rfl).1 rfl

theorem run_fresh_distinct (ms : List TransactionMessage) (t : DistributedTable)
    (hd : ∀ m ∈ ms, (base64Decode m.transaction).isSome)
    (hsd : ms.Pairwise (fun a b => a.sender ≠ b.sender))
    (hhd : ms.Pairwise (fun a b => hashOfMsg a ≠ hashOfMsg b))
    (hf1 : ∀ m ∈ ms, alistLookup t.peers m.sender = none)
    (hf2 : ∀ m ∈ ms, alistLookup t.transactions (hashOfMsg m) = none) :
    ∃ t1, runEvents t (msgEvents ms) = .ok t1 ∧
      t1.peers.length = t.peers.length + ms.length ∧
      t1.transactions.length = t.transactions.length + ms.length ∧
      (∀ m ∈ ms, alistLookup t1.peers m.sender = some [m.transaction] ∧
        alistLookup t1.transactions (hashOfMsg m) = some m.transaction) ∧
      (∀ k, (∀ m ∈ ms, k ≠ m.sender) →
        alistLookup t1.peers k = alistLookup t.peers k) ∧
      (∀ k, (∀ m ∈ ms, k ≠ hashOfMsg m) →
        alistLookup t1.transactions k = alistLookup t.transactions k) := by
  induction ms generalizing t with
  | nil =>
    exact ⟨t, rfl, by simp, by simp, by simp, fun k _ => rfl, fun k _ => rfl⟩
  | cons m ms ih =>
    rw [List.pairwise_cons] at hsd hhd
    obtain ⟨hsd1, hsd2⟩ := hsd
    obtain ⟨hhd1, hhd2⟩ := hhd
    obtain ⟨bs, hd1⟩ := Option.isSome_iff_exists.mp (hd m (List.mem_cons_self m ms))
    have hH : bytesToHex bs = hashOfMsg m := by
      simp [hashOfMsg, hd1]
    have hm1 : alistLookup t.peers m.sender = none :=
      hf1 m (List.mem_cons_self m ms)
    have hm2 : alistLookup t.transactions (hashOfMsg m) = none :=
      hf2 m (List.mem_cons_self m ms)
    have hi := ingest_ok t m bs hd1
    set t2 : DistributedTable :=
      ⟨alistPush t.peers m.sender m.transaction,
        alistInsert t.transactions (bytesToHex bs) m.transaction⟩ with ht2
    obtain ⟨t1, hrun, hlen1, hlen2, hmem, hfr1, hfr2⟩ := ih t2
      (fun x hx => hd x (List.mem_cons_of_mem m hx))
      hsd2 hhd2
      (fun x hx => by
        show alistLookup (alistPush t.peers m.sender m.transaction) x.sender = none
        rw [alistLookup_push_ne _ _ _ _ (Ne.symm (hsd1 x hx))]
        exact hf1 x (List.mem_cons_of_mem m hx))
      (fun x hx => by
        show alistLookup (alistInsert t.transactions (bytesToHex bs) m.transaction)
          (hashOfMsg x) = none
        rw [hH, alistLookup_insert_ne _ _ _ _ (Ne.symm (hhd1 x hx))]
        exact hf2 x (List.mem_cons_of_mem m hx))
    have hm_peers : alistLookup t1.peers m.sender = some [m.transaction] := by
      rw [hfr1 m.sender (fun x hx => hsd1 x hx)]
      show alistLookup (alistPush t.peers m.sender m.transaction) m.sender = _
      rw [alistLookup_push_self, hm1]
      rfl
    have hm_tx : alistLookup t1.transactions (hashOfMsg m) = some m.transaction := by
      rw [hfr2 (hashOfMsg m) (fun x hx => hhd1 x hx)]
      show alistLookup (alistInsert t.transactions (bytesToHex bs) m.transaction)
        (hashOfMsg m) = _
      rw [← hH]
      exact alistLookup_insert_self t.transactions (bytesToHex bs) m.transaction
    refine ⟨t1, ?_, ?_, ?_, ?_, ?_, ?_⟩
    · simp only [msgEvents, List.map_cons, runEvents, handleBehaviourEvent, hi]
      exact hrun
    · rw [hlen1]
      have : t2.peers.length = t.peers.length + 1 :=
        alistPush_length t.peers m.sender m.transaction hm1
      rw [this]
      simp [Nat.add_assoc, Nat.add_comm 1]
    · rw [hlen2]
      have : t2.transactions.length = t.transactions.length + 1 := by
        apply alistInsert_length
        rw [hH]
        exact hm2
      rw [this]
      simp [Nat.add_assoc, Nat.add_comm 1]
    · intro x hx
      rcases List.mem_cons.mp hx with rfl | hx2
      · exact ⟨hm_peers, hm_tx⟩
      · exact hmem x hx2
    · intro k hk
      rw [hfr1 k (fun x hx => hk x (List.mem_cons_of_mem m hx))]
      show alistLookup (alistPush t.peers m.sender m.transaction) k = _
      exact alistLookup_push_ne _ _ _ _ (hk m (List.mem_cons_self m ms))
    · intro k hk
      rw [hfr2 k (fun x hx => hk x (List.mem_cons_of_mem m hx))]
      show alistLookup (alistInsert t.transactions (bytesToHex bs) m.transaction) k = _
      rw [hH]
      exact alistLookup_insert_ne _ _ _ _ (hk m (List.mem_cons_self m ms))

/-- C9: the four ingestion sub-steps run inside one lock-held window, so
ingestion acts as one atomic step of the event loop; in the resulting
serialized model, ingesting K valid messages with pairwise-distinct
senders and pairwise-distinct payload hashes — in any interleaving
order — yields exactly K entries in `peersToTransactions` and K entries
in `hashToTransaction`, each sender holding exactly its own message and
each hash its own payload: no lost and no torn updates. -/
theorem c9_k_distinct_ingestions_yield_k_entries (ms : List TransactionMessage)
    (hd : ∀ m ∈ ms, (base64Decode m.transaction).isSome)
    (hsd : ms.Pairwise (fun a b => a.sender ≠ b.sender))
    (hhd : ms.Pairwise (fun a b => hashOfMsg a ≠ hashOfMsg b)) :
    ∃ t1, runEvents DistributedTable.empty (msgEvents ms) = .ok t1 ∧
      t1.peers.length = ms.length ∧
      t1.transactions.length = ms.length ∧
      (∀ m ∈ ms, alistLookup t1.peers m.sender = some [m.transaction] ∧
        alistLookup t1.transactions (hashOfMsg m) = some m.transaction) := by
  obtain ⟨t1, hrun, hlen1, hlen2, hmem, _, _⟩ :=
    run_fresh_distinct ms DistributedTable.empty hd hsd hhd
      (fun m _ => rfl) (fun m _ => rfl)
  exact ⟨t1, hrun, by simpa [DistributedTable.empty] using hlen1,
    by simpa [DistributedTable.empty] using hlen2, hmem⟩

/-- C9 witness: two valid messages with distinct senders and distinct
payload hashes produce exactly two entries in each view. -/
theorem c9_witness :
    ∃ t1, runEvents DistributedTable.empty
        (msgEvents [⟨"AQID", "peerA", 0⟩, ⟨"AQI=", "peerB", 1⟩]) = .ok t1 ∧
      t1.peers.length = 2 ∧ t1.transactions.length = 2 := by
  obtain ⟨t1, h1, h2, h3, _⟩ := c9_k_distinct_ingestions_yield_k_entries
    [⟨"AQID", "peerA", 0⟩, ⟨"AQI=", "peerB", 1⟩]
    (by decide) (by decide) (by decide)
  exact ⟨t1, h1, h2, h3⟩

end P2PSim
